import Mathlib

/-!
Shallow embedding of the Argon2 memory-filling core from the `argon2` crate
(`src/memory.rs` and `src/instance.rs`), together with verified properties.

Machine integers are modelled as `Nat` with explicit wrapping (`% 2 ^ 32`,
`% 2 ^ 64`) at the operations where the Rust `u32`/`u64` arithmetic can wrap.
The BLAKE2b compression and the Argon2 `G` block compression (`fill_block`)
live outside the translated sources and are taken as abstract function
parameters (`b2b`, `g`); definitions whose Rust counterpart is not among the
translated source files are marked `Modelled from the spec`.
-/

/-- Number of synchronization points between lanes per pass (`memory.rs`). -/
def SYNC_POINTS : Nat := 4

/-- Number of pseudo-random values generated by one call to Blake in Argon2i
(`instance.rs`). -/
def ADDRESSES_IN_BLOCK : Nat := 128

/-- Output size of BLAKE2b in bytes (`instance.rs`). -/
def BLAKE2B_OUTBYTES : Nat := 64

/-- Modelled from the spec: minimum tag length in bytes (`MIN_OUTLEN` lives in
`lib.rs`, which is not among the translated sources; the spec fixes it to 4). -/
def MIN_OUTLEN : Nat := 4

/-- Modelled from the spec: maximum tag length in bytes (`MAX_OUTLEN` lives in
`lib.rs`; the spec fixes it to `2 ^ 32 - 1`). -/
def MAX_OUTLEN : Nat := 2 ^ 32 - 1

/-- Modelled from the spec: size of a memory block in bytes (`BLOCK_SIZE` lives
in `lib.rs`; the spec fixes blocks to 1024 bytes). -/
def BLOCK_SIZE : Nat := 1024

/-- Modelled from the spec: the error kind surfaced by the core (the `Error`
enum lives in `lib.rs`; only `OutputTooLong` is produced by the core). -/
inductive Error where
  | OutputTooLong : Error
  deriving DecidableEq

/-- Modelled from the spec: the Argon2 version discriminants 0x10 and 0x13
(the `Version` enum lives in `lib.rs`). -/
inductive Version where
  | V0x10 : Version
  | V0x13 : Version
  deriving DecidableEq

/-- Modelled from the spec: the Argon2 algorithm family (the `Algorithm` enum
lives in `lib.rs`). -/
inductive Algorithm where
  | Argon2d : Algorithm
  | Argon2i : Algorithm
  | Argon2id : Algorithm
  deriving DecidableEq

/-- Modelled from the spec: numeric discriminant of an algorithm as fed into
the address generator's input block (Argon2d=0, Argon2i=1, Argon2id=2). -/
def algId : Algorithm → Nat
  | Algorithm.Argon2d => 0
  | Algorithm.Argon2i => 1
  | Algorithm.Argon2id => 2

/-- A 1024-byte memory block viewed as its sequence of 64-bit words
(only indices 0..127 are meaningful). -/
abbrev Block := Nat → Nat

/-- The backing array of blocks, indexed by absolute block offset. -/
abbrev Mem := Nat → Block

/-- The all-zero block (`Block::default()`). -/
def zero_block : Block := fun _ => 0

/-- Elementwise XOR of two blocks (`^=` on blocks). -/
def blockXor (a b : Block) : Block := fun i => Nat.xor (a i) (b i)

/-- Modelled from the spec: `fill_block` (the Argon2 `G` compression defined in
`block.rs`, which is not among the translated sources). `g` abstracts the pure
compression of `(prev, ref)`; with `with_xor` set, the result is additionally
XORed into the prior destination block. -/
def fill_block (g : Block → Block → Block) (dst prev rf : Block) (with_xor : Bool) : Block :=
  if with_xor then blockXor dst (g prev rf) else g prev rf

/-- Argon2 position (`instance.rs`): where we construct the block right now. -/
structure Position where
  pass : Nat
  lane : Nat
  slice : Nat
  index : Nat
  deriving DecidableEq

/-- Argon2 instance configuration (`instance.rs`); `memory_len` and
`segment_length` stand for `memory.len()` and `memory.segment_length()` of the
owned `Memory` view. -/
structure Instance where
  memory_len : Nat
  version : Version
  passes : Nat
  lane_length : Nat
  lanes : Nat
  threads : Nat
  alg : Algorithm
  segment_length : Nat
  deriving DecidableEq

/-- Wrapping `u32` subtraction, for arguments below `2 ^ 32`. -/
def wsub32 (a b : Nat) : Nat := (a + 2 ^ 32 - b) % 2 ^ 32

/-- Wrapping `u32` addition. -/
def wadd32 (a b : Nat) : Nat := (a + b) % 2 ^ 32

/-- Wrapping `u32` multiplication. -/
def wmul32 (a b : Nat) : Nat := a * b % 2 ^ 32

/-- `Memory::segment_length_for_params` (`memory.rs`): align the memory size,
with a floor of `2 * SYNC_POINTS * lanes` blocks; all arithmetic is `u32`. -/
def segment_length_for_params (m_cost lanes : Nat) : Nat :=
  let memory_blocks :=
    if m_cost < 2 * SYNC_POINTS * lanes % 2 ^ 32 then 2 * SYNC_POINTS * lanes % 2 ^ 32
    else m_cost
  memory_blocks / (lanes * SYNC_POINTS % 2 ^ 32)

/-- `Instance::index_alpha` (`instance.rs`): absolute position of the reference
block in the lane, following the Argon2 skewed distribution. `u32` arithmetic
is wrapping; the two multiplications in the skew are performed in `u64`. -/
def index_alpha (inst : Instance) (position : Position) (pseudo_rand : Nat)
    (same_lane : Bool) : Nat :=
  let seg := inst.segment_length
  let reference_area_size :=
    if position.pass = 0 then
      if position.slice = 0 then
        wsub32 position.index 1
      else if same_lane then
        wsub32 (wadd32 (wmul32 position.slice seg) position.index) 1
      else
        wsub32 (wmul32 position.slice seg) (if position.index = 0 then 1 else 0)
    else
      if same_lane then
        wsub32 (wadd32 (wsub32 inst.lane_length seg) position.index) 1
      else
        wsub32 (wsub32 inst.lane_length seg) (if position.index = 0 then 1 else 0)
  let relative_position := pseudo_rand
  let relative_position := (relative_position * relative_position) >>> 32
  let relative_position :=
    wsub32 (wsub32 reference_area_size 1) ((reference_area_size * relative_position) >>> 32)
  let start_position : Nat :=
    if position.pass ≠ 0 then
      if position.slice = SYNC_POINTS - 1 then 0 else wmul32 (position.slice + 1) seg
    else 0
  wadd32 start_position relative_position % inst.lane_length

/-- `next_addresses` (`instance.rs`): increment the counter word of the input
block and produce the next address block by a double application of `G`. -/
def next_addresses (g : Block → Block → Block) (address_block input_block : Block) :
    Block × Block :=
  let input_block := Function.update input_block 6 ((input_block 6 + 1) % 2 ^ 64)
  let address_block := fill_block g address_block zero_block input_block false
  let address_block := fill_block g address_block zero_block address_block false
  (address_block, input_block)

/-- The `data_independent_addressing` condition computed at the top of
`Instance::fill_segment` (`instance.rs`). -/
def data_independent_addressing (inst : Instance) (position : Position) : Bool :=
  decide (inst.alg = Algorithm.Argon2i) ||
    (decide (inst.alg = Algorithm.Argon2id) && decide (position.pass = 0) &&
      decide (position.slice < SYNC_POINTS / 2))

/-- One write performed by `fill_segment`: the block offset written, the
`prev_offset` in force at the moment `prev_block` is read, and the `with_xor`
flag passed to `fill_block`. -/
structure WriteEvent where
  offset : Nat
  prev_offset : Nat
  with_xor : Bool
  deriving DecidableEq

/-- The loop body of `Instance::fill_segment` (`instance.rs`), iterated `fuel`
times with loop variable `i`; returns the final memory and the trace of writes
in order. -/
def fill_segment_loop (g : Block → Block → Block) (inst : Instance) (position : Position)
    (dia : Bool) :
    Nat → Nat → Nat → Nat → Block → Block → Mem → Mem × List WriteEvent
  | 0, _, _, _, _, _, mem => (mem, [])
  | fuel + 1, i, curr_offset, prev_offset, address_block, input_block, mem =>
    let prev_offset :=
      if curr_offset % inst.lane_length = 1 then curr_offset - 1 else prev_offset
    let refreshed :=
      if dia ∧ i % ADDRESSES_IN_BLOCK = 0 then next_addresses g address_block input_block
      else (address_block, input_block)
    let address_block := refreshed.1
    let input_block := refreshed.2
    let pseudo_rand :=
      if dia then address_block (i % ADDRESSES_IN_BLOCK) else mem prev_offset 0
    let ref_lane :=
      if position.pass = 0 ∧ position.slice = 0 then position.lane
      else pseudo_rand >>> 32 % 2 ^ 32 % inst.lanes
    let ref_index :=
      index_alpha inst { position with index := i } (pseudo_rand % 2 ^ 32)
        (decide (ref_lane = position.lane))
    let ref_block := mem (inst.lane_length * ref_lane + ref_index)
    let prev_block := mem prev_offset
    let without_xor := decide (inst.version = Version.V0x10) || decide (position.pass = 0)
    let mem :=
      Function.update mem curr_offset
        (fill_block g (mem curr_offset) prev_block ref_block (!without_xor))
    let rest :=
      fill_segment_loop g inst position dia fuel (i + 1) (curr_offset + 1) (prev_offset + 1)
        address_block input_block mem
    (rest.1, ⟨curr_offset, prev_offset, !without_xor⟩ :: rest.2)

/-- `Instance::fill_segment` (`instance.rs`): fill one segment of blocks,
returning the new memory together with the trace of writes. -/
def fill_segment (g : Block → Block → Block) (inst : Instance) (mem : Mem)
    (position : Position) : Mem × List WriteEvent :=
  let address_block := zero_block
  let input_block := zero_block
  let dia := data_independent_addressing inst position
  let input_block :=
    if dia then
      Function.update (Function.update (Function.update (Function.update (Function.update
        (Function.update input_block 0 (position.pass % 2 ^ 64)) 1 (position.lane % 2 ^ 64))
        2 (position.slice % 2 ^ 64)) 3 (inst.memory_len % 2 ^ 64)) 4 (inst.passes % 2 ^ 64))
        5 (algId inst.alg % 2 ^ 64)
    else input_block
  let state :=
    if position.pass = 0 ∧ position.slice = 0 then
      if dia then
        let ab := next_addresses g address_block input_block
        (2, ab.1, ab.2)
      else (2, address_block, input_block)
    else (0, address_block, input_block)
  let starting_index := state.1
  let address_block := state.2.1
  let input_block := state.2.2
  let curr_offset :=
    position.lane * inst.lane_length + position.slice * inst.segment_length + starting_index
  let prev_offset :=
    if curr_offset % inst.lane_length = 0 then curr_offset + inst.lane_length - 1
    else curr_offset - 1
  fill_segment_loop g inst position dia (inst.segment_length - starting_index) starting_index
    curr_offset prev_offset address_block input_block mem

/-- Little-endian byte serialization of a `u32` (`to_le_bytes`). -/
def le32 (n : Nat) : List Nat :=
  [n % 2 ^ 8, n / 2 ^ 8 % 2 ^ 8, n / 2 ^ 16 % 2 ^ 8, n / 2 ^ 24 % 2 ^ 8]

/-- Little-endian byte serialization of a `u64` word (`to_le_bytes`). -/
def le64_bytes (w : Nat) : List Nat :=
  (List.range 8).map fun k => w / 2 ^ (8 * k) % 2 ^ 8

/-- Little-endian decoding of a byte list into one word. -/
def le64_decode (bs : List Nat) : Nat :=
  bs.foldr (fun byte acc => byte % 2 ^ 8 + 2 ^ 8 * acc) 0

/-- Serialization of a block's 128 words as 1024 little-endian bytes
(the `chunks_mut(8)`/`to_le_bytes` loop in `Instance::finalize`). -/
def block_to_bytes (b : Block) : List Nat :=
  ((List.range 128).map fun w => le64_bytes (b w)).flatten

/-- Modelled from the spec: `Block::load` (`block.rs` is not among the
translated sources); interpret little-endian 8-byte chunks as the words of a
block, in order. -/
def load_block (bytes : List Nat) : Block :=
  fun w => le64_decode ((bytes.drop (8 * w)).take 8)

/-- The `while out.len() > BLAKE2B_OUTBYTES` loop of `blake2b_long`
(`instance.rs`), acting on the current 64-byte buffer and the number of output
bytes still to produce. -/
def blake2b_long_loop (b2b : Nat → List Nat → List Nat) (out_buffer : List Nat)
    (remaining : Nat) : List Nat :=
  if h : BLAKE2B_OUTBYTES < remaining then
    let out_buffer := b2b BLAKE2B_OUTBYTES out_buffer
    out_buffer.take (BLAKE2B_OUTBYTES / 2) ++
      blake2b_long_loop b2b out_buffer (remaining - BLAKE2B_OUTBYTES / 2)
  else
    b2b remaining out_buffer
termination_by remaining
decreasing_by simp only [BLAKE2B_OUTBYTES] at h ⊢; omega

/-- `blake2b_long` (`instance.rs`): BLAKE2b with an extended output. `b2b d m`
abstracts a BLAKE2b digest of `m` with digest size `d`. -/
def blake2b_long (b2b : Nat → List Nat → List Nat) (inputs : List (List Nat))
    (outlen : Nat) : Except Error (List Nat) :=
  if outlen < MIN_OUTLEN then Except.error Error.OutputTooLong
  else if outlen > MAX_OUTLEN then Except.error Error.OutputTooLong
  else
    let outlen_bytes := le32 outlen
    if outlen ≤ BLAKE2B_OUTBYTES then
      Except.ok (b2b outlen (outlen_bytes ++ inputs.flatten))
    else
      let out_buffer := b2b BLAKE2B_OUTBYTES (outlen_bytes ++ inputs.flatten)
      Except.ok (out_buffer.take (BLAKE2B_OUTBYTES / 2) ++
        blake2b_long_loop b2b out_buffer (outlen - BLAKE2B_OUTBYTES / 2))

/-- Number of 32-byte half-buffers emitted by the `blake2b_long` loop for a
given number of remaining output bytes (the spec's "while more than 64 bytes
remain unwritten" recursion). -/
def hprime_halves (remaining : Nat) : Nat :=
  if h : BLAKE2B_OUTBYTES < remaining then
    hprime_halves (remaining - BLAKE2B_OUTBYTES / 2) + 1
  else 0
termination_by remaining
decreasing_by simp only [BLAKE2B_OUTBYTES] at h ⊢; omega

/-- Modelled from the spec: the fields of the `Argon2` context (`lib.rs`) that
`Instance::new` reads. -/
structure Argon2Context where
  version : Version
  t_cost : Nat
  lanes : Nat
  threads : Nat

/-- `Instance::fill_first_blocks` (`instance.rs`): create the first two blocks
of every lane from the initial hash. -/
def fill_first_blocks (b2b : Nat → List Nat → List Nat) (inst : Instance) (mem : Mem)
    (blockhash : List Nat) : Except Error Mem :=
  (List.range inst.lanes).foldlM
    (fun mem l =>
      (List.range 2).foldlM
        (fun mem i =>
          match blake2b_long b2b [blockhash, le32 i, le32 l] BLOCK_SIZE with
          | Except.error e => Except.error e
          | Except.ok hash =>
            Except.ok (Function.update mem (l * inst.lane_length + i) (load_block hash)))
        mem)
    mem

/-- `Instance::new` (`instance.rs`): derive the instance configuration, clamp
`threads` to `lanes`, and seed the first two blocks per lane. -/
def Instance.new (b2b : Nat → List Nat → List Nat) (context : Argon2Context)
    (alg : Algorithm) (initial_hash : List Nat) (memory_len segment_length : Nat)
    (mem : Mem) : Except Error (Instance × Mem) :=
  let lane_length := segment_length * SYNC_POINTS
  let inst : Instance :=
    { memory_len := memory_len
      version := context.version
      passes := context.t_cost
      lane_length := lane_length
      lanes := context.lanes
      threads := if context.threads > context.lanes then context.lanes else context.threads
      alg := alg
      segment_length := segment_length }
  match fill_first_blocks b2b inst mem initial_hash with
  | Except.error e => Except.error e
  | Except.ok mem => Except.ok (inst, mem)

/-- `Instance::fill_memory_blocks` (`instance.rs`), single-threaded path: fill
the whole memory pass by pass, slice by slice, lane by lane. -/
def fill_memory_blocks (g : Block → Block → Block) (inst : Instance) (mem : Mem) : Mem :=
  (List.range inst.passes).foldl
    (fun mem r =>
      (List.range SYNC_POINTS).foldl
        (fun mem s =>
          (List.range inst.lanes).foldl
            (fun mem l => (fill_segment g inst mem ⟨r, l, s, 0⟩).1)
            mem)
        mem)
    mem

/-- `Instance::finalize` (`instance.rs`): XOR the last block of each lane,
serialize, and hash to the output tag. -/
def finalize (b2b : Nat → List Nat → List Nat) (inst : Instance) (mem : Mem)
    (outlen : Nat) : Except Error (List Nat) :=
  let blockhash :=
    (List.range' 1 (inst.lanes - 1)).foldl
      (fun acc l => blockXor acc (mem (l * inst.lane_length + (inst.lane_length - 1))))
      (mem (inst.lane_length - 1))
  let blockhash_bytes := block_to_bytes blockhash
  blake2b_long b2b [blockhash_bytes] outlen

/-- `Instance::hash` (`instance.rs`): construct the instance, fill memory, and
finalize into the output tag. -/
def Instance.hash (g : Block → Block → Block) (b2b : Nat → List Nat → List Nat)
    (context : Argon2Context) (alg : Algorithm) (initial_hash : List Nat)
    (memory_len segment_length : Nat) (mem : Mem) (outlen : Nat) :
    Except Error (List Nat) :=
  match Instance.new b2b context alg initial_hash memory_len segment_length mem with
  | Except.error e => Except.error e
  | Except.ok (inst, mem) => finalize b2b inst (fill_memory_blocks g inst mem) outlen

/-- A concrete compression function used to instantiate the abstract `G`
parameter in witnesses. -/
def sample_g : Block → Block → Block := fun x y => fun i => x i + y i + 1

/-- A concrete digest function used to instantiate the abstract BLAKE2b
parameter in witnesses. -/
def sample_b2b : Nat → List Nat → List Nat :=
  fun d msg => (List.range d).map fun i => (msg.foldl (· + ·) 0 + i) % 256

/-- A concrete instance configuration used in witnesses: two lanes of
lane length 8 (segment length 2). -/
def sample_inst : Instance :=
  { memory_len := 16
    version := Version.V0x13
    passes := 1
    lane_length := 8
    lanes := 2
    threads := 1
    alg := Algorithm.Argon2d
    segment_length := 2 }

/-- A concrete all-zero memory used in witnesses. -/
def sample_mem : Mem := fun _ => zero_block

/-- Wrapping `u32` subtraction coincides with truncated subtraction when no
underflow occurs. -/
theorem wsub32_eq {a b : Nat} (hb : b ≤ a) (ha : a < 2 ^ 32) : wsub32 a b = a - b := by
  unfold wsub32
  have h : a + 2 ^ 32 - b = a - b + 2 ^ 32 := by omega
  rw [h, Nat.add_mod_right, Nat.mod_eq_of_lt (by omega)]

/-- Reduction of an in-lane offset modulo the lane length. -/
theorem lane_offset_mod {a n : Nat} (l : Nat) (h : a < n) : (l * n + a) % n = a := by
  rw [Nat.add_comm, Nat.add_mul_mod_self_right, Nat.mod_eq_of_lt h]

/-- The wrap-around predecessor `(a + n - 1) % n` for `1 ≤ a < n`. -/
theorem pred_mod {a n : Nat} (h1 : 1 ≤ a) (h2 : a < n) : (a + n - 1) % n = a - 1 := by
  have h : a + n - 1 = a - 1 + n := by omega
  rw [h, Nat.add_mod_right, Nat.mod_eq_of_lt (by omega)]

/-- C7 (amended): for `1 ≤ lanes` with `2 * SYNC_POINTS * lanes < 2 ^ 32` (no
`u32` overflow in the floor computation), `segment_length_for_params` is the
truncating division `max m_cost (2 * SYNC_POINTS * lanes) / (lanes * SYNC_POINTS)`,
and multiplied back by `lanes * 4` it is `max m_cost (8 * lanes)` rounded down
to a multiple of `4 * lanes`. -/
theorem segment_length_for_params_rounding_amended (m_cost lanes : Nat)
    (h1 : 1 ≤ lanes) (h2 : 2 * SYNC_POINTS * lanes < 2 ^ 32) :
    segment_length_for_params m_cost lanes
        = max m_cost (2 * SYNC_POINTS * lanes) / (lanes * SYNC_POINTS) ∧
      segment_length_for_params m_cost lanes * lanes * 4
        = max m_cost (8 * lanes) - max m_cost (8 * lanes) % (4 * lanes) := by
  simp only [SYNC_POINTS] at h2
  have hm : segment_length_for_params m_cost lanes = max m_cost (8 * lanes) / (lanes * 4) := by
    simp only [segment_length_for_params, SYNC_POINTS]
    have e1 : 2 * 4 * lanes % 2 ^ 32 = 8 * lanes := by omega
    have e2 : lanes * 4 % 2 ^ 32 = lanes * 4 := by omega
    rw [e1, e2]
    congr 1
    rcases Nat.lt_or_ge m_cost (8 * lanes) with h | h
    · rw [if_pos h, Nat.max_eq_right (Nat.le_of_lt h)]
    · rw [if_neg (Nat.not_lt.mpr h), Nat.max_eq_left h]
  constructor
  · rw [hm]
    simp only [SYNC_POINTS]
  · rw [hm]
    have h44 : 4 * lanes = lanes * 4 := Nat.mul_comm 4 lanes
    rw [h44]
    have hx : max m_cost (8 * lanes) / (lanes * 4) * lanes * 4
        = lanes * 4 * (max m_cost (8 * lanes) / (lanes * 4)) := by ring
    rw [hx]
    exact Nat.eq_sub_of_add_eq (Nat.div_add_mod _ _)

/-- C7 counterexample: at `lanes = 2 ^ 29` the `u32` product
`2 * SYNC_POINTS * lanes` wraps to 0, so the claimed equality with the
mathematical `max`/division fails. -/
theorem segment_length_for_params_rounding_cex :
    1 ≤ 2 ^ 29 ∧
      segment_length_for_params 0 (2 ^ 29)
        ≠ max 0 (2 * SYNC_POINTS * 2 ^ 29) / (2 ^ 29 * SYNC_POINTS) := by
  constructor
  · decide
  · decide

/-- C7 witness at `m_cost = 32`, `lanes = 4`. -/
theorem segment_length_for_params_rounding_amended_wit :
    1 ≤ 4 ∧ 2 * SYNC_POINTS * 4 < 2 ^ 32 ∧
      (segment_length_for_params 32 4
          = max 32 (2 * SYNC_POINTS * 4) / (4 * SYNC_POINTS) ∧
        segment_length_for_params 32 4 * 4 * 4
          = max 32 (8 * 4) - max 32 (8 * 4) % (4 * 4)) :=
  ⟨by decide, by decide,
    segment_length_for_params_rounding_amended 32 4 (by decide) (by decide)⟩

/-- C10 (amended): for `1 ≤ lanes` with `2 * SYNC_POINTS * lanes < 2 ^ 32`,
every segment holds at least 2 blocks; hence the starting index 2 used on
pass 0, slice 0 does not exceed the segment length, and the two seeded block
offsets 0 and 1 of each lane lie inside that lane's first slice
`[0, segment_length)`. -/
theorem segment_length_for_params_min_amended (m_cost lanes : Nat) (h1 : 1 ≤ lanes)
    (h2 : 2 * SYNC_POINTS * lanes < 2 ^ 32) :
    2 ≤ segment_length_for_params m_cost lanes ∧
      0 < segment_length_for_params m_cost lanes ∧
      1 < segment_length_for_params m_cost lanes := by
  simp only [SYNC_POINTS] at h2
  have hmain : 2 ≤ segment_length_for_params m_cost lanes := by
    simp only [segment_length_for_params, SYNC_POINTS]
    have e1 : 2 * 4 * lanes % 2 ^ 32 = 8 * lanes := by omega
    have e2 : lanes * 4 % 2 ^ 32 = lanes * 4 := by omega
    rw [e1, e2]
    have hk : 0 < lanes * 4 := by omega
    rcases Nat.lt_or_ge m_cost (8 * lanes) with h | h
    · rw [if_pos h, Nat.le_div_iff_mul_le hk]
      omega
    · rw [if_neg (Nat.not_lt.mpr h), Nat.le_div_iff_mul_le hk]
      omega
  exact ⟨hmain, by omega, by omega⟩

/-- C10 counterexample: at `lanes = 2 ^ 29` the wrapped floor is 0 and the
segment length collapses to 0, below the claimed minimum of 2. -/
theorem segment_length_for_params_min_cex :
    1 ≤ 2 ^ 29 ∧ ¬ 2 ≤ segment_length_for_params 0 (2 ^ 29) := by
  constructor
  · decide
  · decide

/-- C10 witness at `m_cost = 32`, `lanes = 4`. -/
theorem segment_length_for_params_min_amended_wit :
    1 ≤ 4 ∧ 2 * SYNC_POINTS * 4 < 2 ^ 32 ∧
      (2 ≤ segment_length_for_params 32 4 ∧
        0 < segment_length_for_params 32 4 ∧
        1 < segment_length_for_params 32 4) :=
  ⟨by decide, by decide,
    segment_length_for_params_min_amended 32 4 (by decide) (by decide)⟩

/-- The `prev_offset` value in force at the read point of one loop iteration:
the reset at `curr % lane_length = 1` re-establishes the wrap-around
predecessor formula. -/
theorem prev_read_eq (L ll a prev : Nat) (ha : a < ll) (hm : (L + a) % ll = a)
    (hprev : prev = L + ((a + ll - 1) % ll) ∨ (a = 1 ∧ prev = L + ll)) :
    (if (L + a) % ll = 1 then L + a - 1 else prev) = L + ((a + ll - 1) % ll) := by
  rw [hm]
  by_cases h1 : a = 1
  · rw [if_pos h1, h1]
    have e : (1 + ll - 1) % ll = 0 := by
      have e2 : 1 + ll - 1 = ll := by omega
      rw [e2, Nat.mod_self]
    rw [e]
    omega
  · rw [if_neg h1]
    rcases hprev with h | ⟨h1', _⟩
    · exact h
    · exact absurd h1' h1

/-- Incrementing the wrap-around predecessor keeps the loop invariant: either
the formula at `a + 1` holds directly, or `a + 1 = 1` and the value overshoots
by exactly one lane (to be fixed by the reset of the next iteration). -/
theorem prev_step_inv (L ll a : Nat) (ha : a < ll) :
    L + ((a + ll - 1) % ll) + 1 = L + ((a + 1 + ll - 1) % ll) ∨
      (a + 1 = 1 ∧ L + ((a + ll - 1) % ll) + 1 = L + ll) := by
  by_cases h0 : a = 0
  · right
    subst h0
    refine ⟨rfl, ?_⟩
    have e : (0 + ll - 1) % ll = ll - 1 := by
      have e2 : 0 + ll - 1 = ll - 1 := by omega
      rw [e2]
      exact Nat.mod_eq_of_lt (by omega)
    rw [e]
    omega
  · left
    rw [pred_mod (by omega) ha]
    have e : (a + 1 + ll - 1) % ll = a := by
      have e2 : a + 1 + ll - 1 = a + ll := by omega
      rw [e2, Nat.add_mod_right]
      exact Nat.mod_eq_of_lt ha
    rw [e]
    omega

/-- The initial `prev_offset` computed before the loop satisfies the
wrap-around predecessor formula. -/
theorem prev_init_inv (L ll a : Nat) (ha : a < ll) (hm : (L + a) % ll = a) :
    (if (L + a) % ll = 0 then L + a + ll - 1 else L + a - 1)
      = L + ((a + ll - 1) % ll) := by
  rw [hm]
  by_cases h0 : a = 0
  · rw [if_pos h0, h0]
    have e : (0 + ll - 1) % ll = ll - 1 := by
      have e2 : 0 + ll - 1 = ll - 1 := by omega
      rw [e2]
      exact Nat.mod_eq_of_lt (by omega)
    rw [e]
    omega
  · rw [if_neg h0, pred_mod (by omega) ha]
    omega

/-- The write trace of `fill_segment_loop`: starting at loop index `i` with
the `prev_offset` invariant in force, the loop emits exactly one event per
index `k ∈ [i, i + fuel)`, writing offset `lane * lane_length + slice *
segment_length + k`, reading the in-lane wrap-around predecessor, and using
the version/pass `with_xor` flag. -/
theorem fill_segment_loop_events (g : Block → Block → Block) (inst : Instance)
    (position : Position) (dia : Bool) :
    ∀ (fuel i prev : Nat) (aB iB : Block) (mem : Mem),
      position.slice * inst.segment_length + i + fuel ≤ inst.lane_length →
      (prev = position.lane * inst.lane_length +
          ((position.slice * inst.segment_length + i + inst.lane_length - 1) %
            inst.lane_length) ∨
        (position.slice * inst.segment_length + i = 1 ∧
          prev = position.lane * inst.lane_length + inst.lane_length)) →
      (fill_segment_loop g inst position dia fuel i
          (position.lane * inst.lane_length + (position.slice * inst.segment_length + i))
          prev aB iB mem).2 =
        (List.range' i fuel).map (fun k =>
          { offset := position.lane * inst.lane_length +
              (position.slice * inst.segment_length + k)
            prev_offset := position.lane * inst.lane_length +
              ((position.slice * inst.segment_length + k + inst.lane_length - 1) %
                inst.lane_length)
            with_xor := !(decide (inst.version = Version.V0x10) ||
              decide (position.pass = 0)) : WriteEvent }) := by
  intro fuel
  induction fuel with
  | zero =>
    intro i prev aB iB mem hbound hprev
    simp [fill_segment_loop]
  | succ fuel ih =>
    intro i prev aB iB mem hbound hprev
    have ha : position.slice * inst.segment_length + i < inst.lane_length := by omega
    have hm : (position.lane * inst.lane_length +
        (position.slice * inst.segment_length + i)) % inst.lane_length
        = position.slice * inst.segment_length + i := lane_offset_mod _ ha
    simp only [fill_segment_loop]
    rw [List.range'_succ, List.map_cons]
    congr 1
    · simp only [WriteEvent.mk.injEq, true_and, and_true]
      exact prev_read_eq _ _ _ _ ha hm hprev
    · have e : position.lane * inst.lane_length +
          (position.slice * inst.segment_length + i) + 1
          = position.lane * inst.lane_length +
              (position.slice * inst.segment_length + (i + 1)) := by ring
      rw [e]
      apply ih
      · omega
      · rw [prev_read_eq _ _ _ _ ha hm hprev]
        exact prev_step_inv _ _ _ ha

/-- `fill_segment_loop` leaves every block outside `[curr, curr + fuel)`
unchanged. -/
theorem fill_segment_loop_frame (g : Block → Block → Block) (inst : Instance)
    (position : Position) (dia : Bool) :
    ∀ (fuel i curr prev : Nat) (aB iB : Block) (mem : Mem) (j : Nat),
      j < curr ∨ curr + fuel ≤ j →
      (fill_segment_loop g inst position dia fuel i curr prev aB iB mem).1 j = mem j := by
  intro fuel
  induction fuel with
  | zero =>
    intro i curr prev aB iB mem j hj
    simp [fill_segment_loop]
  | succ fuel ih =>
    intro i curr prev aB iB mem j hj
    simp only [fill_segment_loop]
    refine Eq.trans (ih _ _ _ _ _ _ _ ?_) ?_
    · omega
    · exact Function.update_noteq (by omega) _ _

/-- The write trace of a full `fill_segment` call at `(r, l, s, 0)`. -/
theorem fill_segment_events (g : Block → Block → Block) (inst : Instance) (mem : Mem)
    (r l s : Nat) (hll : inst.lane_length = 4 * inst.segment_length)
    (hseg : 1 ≤ inst.segment_length) (hs : s < 4) :
    (fill_segment g inst mem ⟨r, l, s, 0⟩).2 =
      (List.range' (if r = 0 ∧ s = 0 then 2 else 0)
          (inst.segment_length - (if r = 0 ∧ s = 0 then 2 else 0))).map
        (fun k =>
          { offset := l * inst.lane_length + (s * inst.segment_length + k)
            prev_offset := l * inst.lane_length +
              ((s * inst.segment_length + k + inst.lane_length - 1) % inst.lane_length)
            with_xor := !(decide (inst.version = Version.V0x10) || decide (r = 0))
            : WriteEvent }) := by
  have hmul : s * inst.segment_length ≤ 3 * inst.segment_length :=
    Nat.mul_le_mul_right _ (by omega)
  simp only [fill_segment]
  by_cases h0 : r = 0 ∧ s = 0
  · obtain ⟨hr, hs0⟩ := h0
    subst hr
    subst hs0
    simp only [and_self, if_true, ite_true, apply_ite Prod.fst, apply_ite Prod.snd, ite_self]
    have e : l * inst.lane_length + 0 * inst.segment_length + 2
        = l * inst.lane_length + (0 * inst.segment_length + 2) := by ring
    rw [e]
    have ha : 0 * inst.segment_length + 2 < inst.lane_length := by
      have : 0 * inst.segment_length = 0 := by ring
      omega
    have hm := lane_offset_mod l ha
    rw [prev_init_inv _ _ _ ha hm]
    refine fill_segment_loop_events g inst ⟨0, l, 0, 0⟩ _ _ _ _ _ _ _ ?_ ?_
    · show 0 * inst.segment_length + 2 + (inst.segment_length - 2) ≤ inst.lane_length
      omega
    · left
      rfl
  · simp only [if_neg h0]
    have e : l * inst.lane_length + s * inst.segment_length + 0
        = l * inst.lane_length + (s * inst.segment_length + 0) := by ring
    rw [e]
    have ha : s * inst.segment_length + 0 < inst.lane_length := by omega
    have hm := lane_offset_mod l ha
    rw [prev_init_inv _ _ _ ha hm]
    refine fill_segment_loop_events g inst ⟨r, l, s, 0⟩ _ _ _ _ _ _ _ ?_ ?_
    · show s * inst.segment_length + 0 + (inst.segment_length - 0) ≤ inst.lane_length
      omega
    · left
      rfl

/-- C2 (amended): `index_alpha` always returns a value below `lane_length`
(for any instance with a positive lane length); and on pass 0, slice 0 the
returned value is below `position.index` provided `2 ≤ position.index`, which
is the only way `fill_segment` ever calls it there (`starting_index = 2`). -/
theorem index_alpha_bounds_amended (inst : Instance) (position : Position)
    (pseudo_rand : Nat) (same_lane : Bool) (hll : 0 < inst.lane_length) :
    index_alpha inst position pseudo_rand same_lane < inst.lane_length ∧
      (pseudo_rand < 2 ^ 32 → position.index < 2 ^ 32 → position.pass = 0 →
        position.slice = 0 → 2 ≤ position.index →
        index_alpha inst position pseudo_rand same_lane < position.index) := by
  constructor
  · exact Nat.mod_lt _ hll
  · intro hpr hidx hpass hslice h2
    unfold index_alpha
    simp only [hpass, hslice, if_true, ite_true, eq_self_iff_true, ne_eq,
      not_true_eq_false, if_false, ite_false]
    have hA : wsub32 position.index 1 = position.index - 1 :=
      wsub32_eq (by omega) hidx
    rw [hA]
    have hA1 : 1 ≤ position.index - 1 := by omega
    have hA32 : position.index - 1 < 2 ^ 32 := by omega
    have hrel : (pseudo_rand * pseudo_rand) >>> 32 < 2 ^ 32 := by
      rw [Nat.shiftRight_eq_div_pow]
      rw [Nat.div_lt_iff_lt_mul (by norm_num)]
      exact Nat.mul_lt_mul'' hpr hpr
    have hq : ((position.index - 1) * ((pseudo_rand * pseudo_rand) >>> 32)) >>> 32
        ≤ position.index - 2 := by
      rw [Nat.shiftRight_eq_div_pow]
      have hlt : (position.index - 1) * ((pseudo_rand * pseudo_rand) >>> 32) / 2 ^ 32
          < position.index - 1 := by
        rw [Nat.div_lt_iff_lt_mul (by norm_num)]
        exact mul_lt_mul_of_pos_left hrel (by omega)
      omega
    rw [wsub32_eq hA1 hA32]
    rw [wsub32_eq (by omega) (by omega)]
    have hw : wadd32 0 (position.index - 1 - 1 -
        (((position.index - 1) * ((pseudo_rand * pseudo_rand) >>> 32)) >>> 32))
        = position.index - 1 - 1 -
            (((position.index - 1) * ((pseudo_rand * pseudo_rand) >>> 32)) >>> 32) := by
      unfold wadd32
      rw [Nat.zero_add, Nat.mod_eq_of_lt (by omega)]
    rw [hw]
    calc (position.index - 1 - 1 -
          (((position.index - 1) * ((pseudo_rand * pseudo_rand) >>> 32)) >>> 32))
            % inst.lane_length
        ≤ position.index - 1 - 1 -
            (((position.index - 1) * ((pseudo_rand * pseudo_rand) >>> 32)) >>> 32) :=
          Nat.mod_le _ _
      _ < position.index := by omega

/-- C2 counterexample: the claim quantifies over every position, but at
pass 0, slice 0, index 0 no return value can be `< position.index = 0`. -/
theorem index_alpha_pass0_slice0_cex :
    ¬ index_alpha sample_inst { pass := 0, lane := 0, slice := 0, index := 0 } 0 true
        < ({ pass := 0, lane := 0, slice := 0, index := 0 } : Position).index :=
  fun h => Nat.not_lt_zero _ h

/-- C2 witness: `sample_inst` with position `(0, 0, 0, 3)`. -/
theorem index_alpha_bounds_amended_wit :
    0 < sample_inst.lane_length ∧
      (index_alpha sample_inst { pass := 0, lane := 0, slice := 0, index := 3 } 7 true
          < sample_inst.lane_length ∧
        (7 < 2 ^ 32 → 3 < 2 ^ 32 → 0 = 0 → 0 = 0 → 2 ≤ 3 →
          index_alpha sample_inst { pass := 0, lane := 0, slice := 0, index := 3 } 7 true
            < 3)) :=
  ⟨by decide,
    index_alpha_bounds_amended sample_inst
      { pass := 0, lane := 0, slice := 0, index := 3 } 7 true (by decide)⟩

/-- Offsets lying in two different lanes are distinct. -/
theorem lane_ranges_disjoint {ll o l l₂ : Nat} (hne : l ≠ l₂)
    (h1 : l * ll ≤ o) (h2 : o < l * ll + ll) (h3 : l₂ * ll ≤ o)
    (h4 : o < l₂ * ll + ll) : False := by
  rcases Nat.lt_or_ge l l₂ with h | h
  · have hm : (l + 1) * ll ≤ l₂ * ll := Nat.mul_le_mul_right _ h
    rw [Nat.succ_mul] at hm
    omega
  · have h' : l₂ < l := by omega
    have hm : (l₂ + 1) * ll ≤ l * ll := Nat.mul_le_mul_right _ (by omega)
    rw [Nat.succ_mul] at hm
    omega

/-- `fill_segment` leaves every block outside the written window of its
segment unchanged. -/
theorem fill_segment_frame (g : Block → Block → Block) (inst : Instance) (mem : Mem)
    (r l s j : Nat)
    (hj : j < l * inst.lane_length + s * inst.segment_length +
        (if r = 0 ∧ s = 0 then 2 else 0) ∨
      l * inst.lane_length + s * inst.segment_length + inst.segment_length ≤ j) :
    (fill_segment g inst mem ⟨r, l, s, 0⟩).1 j = mem j := by
  simp only [fill_segment]
  by_cases h0 : r = 0 ∧ s = 0
  · obtain ⟨hr, hs0⟩ := h0
    subst hr
    subst hs0
    simp only [eq_self_iff_true, and_self, if_true, ite_true, apply_ite Prod.fst,
      apply_ite Prod.snd, ite_self] at hj ⊢
    revert hj
    generalize l * inst.lane_length = L
    intro hj
    refine fill_segment_loop_frame g inst _ _ _ _ _ _ _ _ _ _ ?_
    omega
  · simp only [if_neg h0] at hj ⊢
    revert hj
    generalize l * inst.lane_length = L
    generalize s * inst.segment_length = A
    intro hj
    refine fill_segment_loop_frame g inst _ _ _ _ _ _ _ _ _ _ ?_
    omega

/-- C1: a `fill_segment` call at `(pass r, lane l, slice s, index 0)` writes
exactly the offsets `base + i` for `i ∈ [starting_index, segment_length)`
(with `starting_index = 2` iff `r = 0 ∧ s = 0`), leaves every other block
unchanged, and never shares a written offset with another lane's call in the
same pass and slice. -/
theorem fill_segment_write_set (g : Block → Block → Block) (inst : Instance) (mem : Mem)
    (r l s start base : Nat) (hll : inst.lane_length = 4 * inst.segment_length)
    (hseg : 1 ≤ inst.segment_length) (hs : s < 4)
    (hstart : start = if r = 0 ∧ s = 0 then 2 else 0)
    (hbase : base = l * inst.lane_length + s * inst.segment_length) :
    ((fill_segment g inst mem ⟨r, l, s, 0⟩).2.map WriteEvent.offset
        = List.range' (base + start) (inst.segment_length - start)) ∧
      (∀ j, j ∉ List.range' (base + start) (inst.segment_length - start) →
        (fill_segment g inst mem ⟨r, l, s, 0⟩).1 j = mem j) ∧
      (∀ l₂ : Nat, ∀ mem₂ : Mem, l₂ ≠ l →
        ∀ o, o ∈ (fill_segment g inst mem ⟨r, l, s, 0⟩).2.map WriteEvent.offset →
          o ∉ (fill_segment g inst mem₂ ⟨r, l₂, s, 0⟩).2.map WriteEvent.offset) := by
  have hofs : ∀ (l' : Nat) (mem' : Mem),
      (fill_segment g inst mem' ⟨r, l', s, 0⟩).2.map WriteEvent.offset
        = List.range' (l' * inst.lane_length + s * inst.segment_length + start)
            (inst.segment_length - start) := by
    intro l' mem'
    rw [fill_segment_events g inst mem' r l' s hll hseg hs, List.map_map, ← hstart]
    have hcomp : (WriteEvent.offset ∘ fun k =>
        ({ offset := l' * inst.lane_length + (s * inst.segment_length + k)
           prev_offset := l' * inst.lane_length +
             ((s * inst.segment_length + k + inst.lane_length - 1) % inst.lane_length)
           with_xor := !(decide (inst.version = Version.V0x10) || decide (r = 0))
           : WriteEvent }))
        = ((l' * inst.lane_length + s * inst.segment_length) + ·) := by
      funext k
      simp only [Function.comp]
      ring
    rw [hcomp, List.map_add_range']
  have hmul₀ : s * inst.segment_length ≤ 3 * inst.segment_length :=
    Nat.mul_le_mul_right _ (by omega)
  refine ⟨?_, ?_, ?_⟩
  · rw [hbase]
    exact hofs l mem
  · intro j hj
    rw [List.mem_range'_1] at hj
    apply fill_segment_frame g inst mem r l s j
    rw [hbase] at hj
    revert hj
    rw [hstart]
    generalize l * inst.lane_length = L
    generalize s * inst.segment_length = A
    intro hj
    by_cases h0 : r = 0 ∧ s = 0
    · simp only [if_pos h0] at hj ⊢
      omega
    · simp only [if_neg h0] at hj ⊢
      omega
  · intro l₂ mem₂ hne o ho ho₂
    rw [hofs l mem, List.mem_range'_1] at ho
    rw [hofs l₂ mem₂, List.mem_range'_1] at ho₂
    by_cases hstseg : start ≤ inst.segment_length
    · have hA : s * inst.segment_length + start +
          (inst.segment_length - start) ≤ inst.lane_length := by
        by_cases h0 : r = 0 ∧ s = 0
        · have hs0 : s = 0 := h0.2
          have hz : s * inst.segment_length = 0 := by rw [hs0]; ring
          omega
        · have hst0 : start = 0 := by rw [hstart, if_neg h0]
          omega
      exact @lane_ranges_disjoint inst.lane_length o l l₂ (fun hc => hne hc.symm)
        (by omega) (by omega) (by omega) (by omega)
    · omega

/-- C3: every write of `fill_segment` carries
`with_xor = ¬(version = 0x10 ∨ pass = 0)`, and `fill_block` overwrites the
destination when the flag is false while XORing into the prior destination
value when it is true. -/
theorem fill_segment_version_effect (g : Block → Block → Block) (inst : Instance)
    (mem : Mem) (r l s : Nat) (hll : inst.lane_length = 4 * inst.segment_length)
    (hseg : 1 ≤ inst.segment_length) (hs : s < 4) :
    (∀ ev ∈ (fill_segment g inst mem ⟨r, l, s, 0⟩).2,
        ev.with_xor = !(decide (inst.version = Version.V0x10) || decide (r = 0))) ∧
      (∀ dst p q : Block, fill_block g dst p q false = g p q) ∧
      (∀ dst p q : Block, fill_block g dst p q true = blockXor dst (g p q)) := by
  refine ⟨?_, fun dst p q => rfl, fun dst p q => rfl⟩
  intro ev hev
  rw [fill_segment_events g inst mem r l s hll hseg hs] at hev
  obtain ⟨k, hk, rfl⟩ := List.mem_map.mp hev
  rfl

/-- C8: at the moment `prev_block` is read, `prev_offset` is always the
in-lane wrap-around predecessor of the written offset: it equals
`lane * lane_length + ((slice * segment_length + i - 1) mod lane_length)`,
i.e. `offset - 1` except at a lane boundary, where it wraps to the last block
of the lane. -/
theorem fill_segment_prev_offset_invariant (g : Block → Block → Block)
    (inst : Instance) (mem : Mem) (r l s : Nat)
    (hll : inst.lane_length = 4 * inst.segment_length)
    (hseg : 1 ≤ inst.segment_length) (hs : s < 4) :
    ∀ ev ∈ (fill_segment g inst mem ⟨r, l, s, 0⟩).2,
      ev.prev_offset = l * inst.lane_length +
          ((ev.offset - l * inst.lane_length + inst.lane_length - 1) %
            inst.lane_length) ∧
        (ev.offset % inst.lane_length ≠ 0 → ev.prev_offset = ev.offset - 1) ∧
        (ev.offset % inst.lane_length = 0 →
          ev.prev_offset = ev.offset + inst.lane_length - 1) := by
  intro ev hev
  rw [fill_segment_events g inst mem r l s hll hseg hs] at hev
  obtain ⟨k, hk, rfl⟩ := List.mem_map.mp hev
  rw [List.mem_range'_1] at hk
  have hmul₀ : s * inst.segment_length ≤ 3 * inst.segment_length :=
    Nat.mul_le_mul_right _ (by omega)
  have hkseg : k < inst.segment_length := by
    by_cases h0 : r = 0 ∧ s = 0
    · simp only [if_pos h0] at hk
      omega
    · simp only [if_neg h0] at hk
      omega
  have ha : s * inst.segment_length + k < inst.lane_length := by omega
  have hm := lane_offset_mod l ha
  refine ⟨?_, ?_, ?_⟩
  · have e : l * inst.lane_length + (s * inst.segment_length + k) -
        l * inst.lane_length = s * inst.segment_length + k := by omega
    simp only [e]
  · intro hne0
    simp only [hm] at hne0
    simp only [pred_mod (by omega : 1 ≤ s * inst.segment_length + k) ha]
    omega
  · intro heq0
    simp only [hm] at heq0
    have e : (s * inst.segment_length + k + inst.lane_length - 1) %
        inst.lane_length = inst.lane_length - 1 := by
      rw [heq0]
      have e2 : 0 + inst.lane_length - 1 = inst.lane_length - 1 := by omega
      rw [e2]
      exact Nat.mod_eq_of_lt (by omega)
    simp only [e]
    omega

/-- C4: `fill_segment` selects data-independent (address-block) reference
selection iff the algorithm is Argon2i, or Argon2id in pass 0 with slice
below 2; for Argon2id that means exactly pass 0 and slice 0 or 1, and for
Argon2d it never happens. -/
theorem data_independent_addressing_characterization (inst : Instance) (r l s : Nat) :
    (data_independent_addressing inst ⟨r, l, s, 0⟩ = true ↔
        inst.alg = Algorithm.Argon2i ∨
          (inst.alg = Algorithm.Argon2id ∧ r = 0 ∧ s < 2)) ∧
      ((data_independent_addressing inst ⟨r, l, s, 0⟩ = true ∧
          inst.alg = Algorithm.Argon2id) ↔
        (inst.alg = Algorithm.Argon2id ∧ r = 0 ∧ (s = 0 ∨ s = 1))) ∧
      (inst.alg = Algorithm.Argon2d →
        data_independent_addressing inst ⟨r, l, s, 0⟩ = false) := by
  unfold data_independent_addressing
  cases halg : inst.alg <;>
    simp [halg, SYNC_POINTS] <;>
    omega

/-- C1 witness: `sample_inst` at pass 0, lane 0, slice 0. -/
theorem fill_segment_write_set_wit :
    sample_inst.lane_length = 4 * sample_inst.segment_length ∧
      1 ≤ sample_inst.segment_length ∧
      (0 : Nat) < 4 ∧
      (2 : Nat) = (if (0 : Nat) = 0 ∧ (0 : Nat) = 0 then 2 else 0) ∧
      (0 : Nat) = 0 * sample_inst.lane_length + 0 * sample_inst.segment_length ∧
      (((fill_segment sample_g sample_inst sample_mem ⟨0, 0, 0, 0⟩).2.map
            WriteEvent.offset
          = List.range' (0 + 2) (sample_inst.segment_length - 2)) ∧
        (∀ j, j ∉ List.range' (0 + 2) (sample_inst.segment_length - 2) →
          (fill_segment sample_g sample_inst sample_mem ⟨0, 0, 0, 0⟩).1 j
            = sample_mem j) ∧
        (∀ l₂ : Nat, ∀ mem₂ : Mem, l₂ ≠ 0 →
          ∀ o, o ∈ (fill_segment sample_g sample_inst sample_mem ⟨0, 0, 0, 0⟩).2.map
              WriteEvent.offset →
            o ∉ (fill_segment sample_g sample_inst mem₂ ⟨0, l₂, 0, 0⟩).2.map
              WriteEvent.offset)) :=
  ⟨by decide, by decide, by decide, by decide, by decide,
    fill_segment_write_set sample_g sample_inst sample_mem 0 0 0 2 0 (by decide)
      (by decide) (by decide) (by decide) (by decide)⟩

/-- C3 witness: `sample_inst` at pass 0, lane 0, slice 0. -/
theorem fill_segment_version_effect_wit :
    sample_inst.lane_length = 4 * sample_inst.segment_length ∧
      1 ≤ sample_inst.segment_length ∧
      (0 : Nat) < 4 ∧
      ((∀ ev ∈ (fill_segment sample_g sample_inst sample_mem ⟨0, 0, 0, 0⟩).2,
          ev.with_xor
            = !(decide (sample_inst.version = Version.V0x10) ||
                decide ((0 : Nat) = 0))) ∧
        (∀ dst p q : Block, fill_block sample_g dst p q false = sample_g p q) ∧
        (∀ dst p q : Block,
          fill_block sample_g dst p q true = blockXor dst (sample_g p q))) :=
  ⟨by decide, by decide, by decide,
    fill_segment_version_effect sample_g sample_inst sample_mem 0 0 0 (by decide)
      (by decide) (by decide)⟩

/-- C8 witness: `sample_inst` at pass 0, lane 0, slice 0. -/
theorem fill_segment_prev_offset_invariant_wit :
    sample_inst.lane_length = 4 * sample_inst.segment_length ∧
      1 ≤ sample_inst.segment_length ∧
      (0 : Nat) < 4 ∧
      (∀ ev ∈ (fill_segment sample_g sample_inst sample_mem ⟨0, 0, 0, 0⟩).2,
        ev.prev_offset = 0 * sample_inst.lane_length +
            ((ev.offset - 0 * sample_inst.lane_length + sample_inst.lane_length - 1) %
              sample_inst.lane_length) ∧
          (ev.offset % sample_inst.lane_length ≠ 0 →
            ev.prev_offset = ev.offset - 1) ∧
          (ev.offset % sample_inst.lane_length = 0 →
            ev.prev_offset = ev.offset + sample_inst.lane_length - 1)) :=
  ⟨by decide, by decide, by decide,
    fill_segment_prev_offset_invariant sample_g sample_inst sample_mem 0 0 0
      (by decide) (by decide) (by decide)⟩

/-- C4 witness: instantiation at `sample_inst` (an Argon2d instance) and
position `(1, 0, 3, 0)`. -/
theorem data_independent_addressing_characterization_wit :
    (data_independent_addressing sample_inst ⟨1, 0, 3, 0⟩ = true ↔
        sample_inst.alg = Algorithm.Argon2i ∨
          (sample_inst.alg = Algorithm.Argon2id ∧ (1 : Nat) = 0 ∧ (3 : Nat) < 2)) ∧
      ((data_independent_addressing sample_inst ⟨1, 0, 3, 0⟩ = true ∧
          sample_inst.alg = Algorithm.Argon2id) ↔
        (sample_inst.alg = Algorithm.Argon2id ∧ (1 : Nat) = 0 ∧
          ((3 : Nat) = 0 ∨ (3 : Nat) = 1))) ∧
      (sample_inst.alg = Algorithm.Argon2d →
        data_independent_addressing sample_inst ⟨1, 0, 3, 0⟩ = false) :=
  data_independent_addressing_characterization sample_inst 1 0 3

/-- One unfolding of `hprime_halves` in the looping case. -/
theorem hprime_halves_pos {remaining : Nat} (h : BLAKE2B_OUTBYTES < remaining) :
    hprime_halves remaining = hprime_halves (remaining - BLAKE2B_OUTBYTES / 2) + 1 := by
  rw [hprime_halves, dif_pos h]

/-- `hprime_halves` is 0 once at most `BLAKE2B_OUTBYTES` bytes remain. -/
theorem hprime_halves_le {remaining : Nat} (h : ¬ BLAKE2B_OUTBYTES < remaining) :
    hprime_halves remaining = 0 := by
  rw [hprime_halves, dif_neg h]

/-- One unfolding of the `blake2b_long` loop in the looping case. -/
theorem blake2b_long_loop_pos (b2b : Nat → List Nat → List Nat) {remaining : Nat}
    (ob : List Nat) (h : BLAKE2B_OUTBYTES < remaining) :
    blake2b_long_loop b2b ob remaining =
      (b2b BLAKE2B_OUTBYTES ob).take (BLAKE2B_OUTBYTES / 2) ++
        blake2b_long_loop b2b (b2b BLAKE2B_OUTBYTES ob)
          (remaining - BLAKE2B_OUTBYTES / 2) := by
  rw [blake2b_long_loop, dif_pos h]

/-- Final step of the `blake2b_long` loop. -/
theorem blake2b_long_loop_le (b2b : Nat → List Nat → List Nat) {remaining : Nat}
    (ob : List Nat) (h : ¬ BLAKE2B_OUTBYTES < remaining) :
    blake2b_long_loop b2b ob remaining = b2b remaining ob := by
  rw [blake2b_long_loop, dif_neg h]

/-- Closed form of the `blake2b_long` loop: it emits the first 32 bytes of
every iterated 64-byte digest and finishes with a digest of the remaining
size over the last buffer. -/
theorem blake2b_long_loop_closed (b2b : Nat → List Nat → List Nat) :
    ∀ (remaining : Nat) (ob : List Nat),
      blake2b_long_loop b2b ob remaining =
        (((List.range (hprime_halves remaining)).map fun k =>
            ((fun v => b2b BLAKE2B_OUTBYTES v)^[k + 1] ob).take
              (BLAKE2B_OUTBYTES / 2)).flatten)
          ++ b2b (remaining - BLAKE2B_OUTBYTES / 2 * hprime_halves remaining)
              ((fun v => b2b BLAKE2B_OUTBYTES v)^[hprime_halves remaining] ob) := by
  intro remaining
  induction remaining using Nat.strong_induction_on with
  | _ remaining ih =>
    intro ob
    by_cases h : BLAKE2B_OUTBYTES < remaining
    · rw [blake2b_long_loop_pos b2b ob h, hprime_halves_pos h,
        ih (remaining - BLAKE2B_OUTBYTES / 2)
          (by simp only [BLAKE2B_OUTBYTES] at h ⊢; omega) (b2b BLAKE2B_OUTBYTES ob)]
      have e : remaining - BLAKE2B_OUTBYTES / 2 *
            (hprime_halves (remaining - BLAKE2B_OUTBYTES / 2) + 1)
          = remaining - BLAKE2B_OUTBYTES / 2 -
              BLAKE2B_OUTBYTES / 2 * hprime_halves (remaining - BLAKE2B_OUTBYTES / 2) := by
        simp only [BLAKE2B_OUTBYTES]
        omega
      rw [List.range_succ_eq_map]
      simp only [List.map_cons, List.flatten_cons, List.map_map, List.append_assoc,
        Function.comp_def, Function.iterate_succ_apply, Function.iterate_one,
        Function.iterate_zero_apply, Nat.succ_eq_add_one, Nat.zero_add, e]
    · rw [blake2b_long_loop_le b2b ob h, hprime_halves_le h]
      simp

/-- C5: `blake2b_long` computes the spec's H′: for `outlen ≤ 64` a single
digest of size `outlen` over `LE32(outlen) ‖ inputs`; for `outlen > 64` the
first 32 bytes of `V₁ = BLAKE2b_64(LE32(outlen) ‖ inputs)` and of every
`V_k = BLAKE2b_64(V_{k-1})` while more than 64 bytes remain unwritten,
followed by a digest of the remaining size over the last `V`. -/
theorem blake2b_long_hprime (b2b : Nat → List Nat → List Nat)
    (inputs : List (List Nat)) (n : Nat) (h1 : MIN_OUTLEN ≤ n) (h2 : n ≤ MAX_OUTLEN) :
    blake2b_long b2b inputs n =
      Except.ok
        (if n ≤ BLAKE2B_OUTBYTES then b2b n (le32 n ++ inputs.flatten)
         else
           (((List.range (hprime_halves (n - BLAKE2B_OUTBYTES / 2) + 1)).map fun k =>
               ((fun v => b2b BLAKE2B_OUTBYTES v)^[k]
                   (b2b BLAKE2B_OUTBYTES (le32 n ++ inputs.flatten))).take
                 (BLAKE2B_OUTBYTES / 2)).flatten)
             ++ b2b (n - BLAKE2B_OUTBYTES / 2 *
                   (hprime_halves (n - BLAKE2B_OUTBYTES / 2) + 1))
                 ((fun v =>
                     b2b BLAKE2B_OUTBYTES v)^[hprime_halves (n - BLAKE2B_OUTBYTES / 2)]
                   (b2b BLAKE2B_OUTBYTES (le32 n ++ inputs.flatten)))) := by
  simp only [blake2b_long]
  rw [if_neg (by omega : ¬ n < MIN_OUTLEN), if_neg (by omega : ¬ n > MAX_OUTLEN)]
  by_cases h3 : n ≤ BLAKE2B_OUTBYTES
  · simp only [if_pos h3]
  · simp only [if_neg h3]
    congr 1
    rw [blake2b_long_loop_closed b2b (n - BLAKE2B_OUTBYTES / 2)
      (b2b BLAKE2B_OUTBYTES (le32 n ++ inputs.flatten))]
    have e : n - BLAKE2B_OUTBYTES / 2 *
          (hprime_halves (n - BLAKE2B_OUTBYTES / 2) + 1)
        = n - BLAKE2B_OUTBYTES / 2 -
            BLAKE2B_OUTBYTES / 2 * hprime_halves (n - BLAKE2B_OUTBYTES / 2) := by
      simp only [BLAKE2B_OUTBYTES]
      omega
    rw [List.range_succ_eq_map]
    simp only [List.map_cons, List.flatten_cons, List.map_map, List.append_assoc,
      Function.comp_def, Function.iterate_succ_apply, Function.iterate_one,
      Function.iterate_zero_apply, Nat.succ_eq_add_one, Nat.zero_add, e]

/-- C5 witness: a concrete digest function, `inputs = [[1, 2, 3]]` and
`outlen = 100`. -/
theorem blake2b_long_hprime_wit :
    MIN_OUTLEN ≤ 100 ∧ (100 : Nat) ≤ MAX_OUTLEN ∧
      blake2b_long sample_b2b [[1, 2, 3]] 100 =
        Except.ok
          (if (100 : Nat) ≤ BLAKE2B_OUTBYTES then
            sample_b2b 100 (le32 100 ++ [[1, 2, 3]].flatten)
           else
             (((List.range (hprime_halves (100 - BLAKE2B_OUTBYTES / 2) + 1)).map fun k =>
                 ((fun v => sample_b2b BLAKE2B_OUTBYTES v)^[k]
                     (sample_b2b BLAKE2B_OUTBYTES (le32 100 ++ [[1, 2, 3]].flatten))).take
                   (BLAKE2B_OUTBYTES / 2)).flatten)
               ++ sample_b2b (100 - BLAKE2B_OUTBYTES / 2 *
                     (hprime_halves (100 - BLAKE2B_OUTBYTES / 2) + 1))
                   ((fun v =>
                       sample_b2b BLAKE2B_OUTBYTES v)^[hprime_halves
                         (100 - BLAKE2B_OUTBYTES / 2)]
                     (sample_b2b BLAKE2B_OUTBYTES (le32 100 ++ [[1, 2, 3]].flatten)))) :=
  ⟨by decide, by decide,
    blake2b_long_hprime sample_b2b [[1, 2, 3]] 100 (by decide) (by decide)⟩

/-- Any output length rejected by `blake2b_long` makes the whole `hash`
pipeline fail with `OutputTooLong`, whichever way the instance was built. -/
theorem hash_outlen_error (g : Block → Block → Block)
    (b2b : Nat → List Nat → List Nat) (context : Argon2Context) (alg : Algorithm)
    (initial_hash : List Nat) (memory_len segment_length : Nat) (mem : Mem)
    (outlen : Nat)
    (hout : ∀ inputs, blake2b_long b2b inputs outlen
      = Except.error Error.OutputTooLong) :
    Instance.hash g b2b context alg initial_hash memory_len segment_length mem outlen
      = Except.error Error.OutputTooLong := by
  unfold Instance.hash
  cases hnew : Instance.new b2b context alg initial_hash memory_len segment_length mem with
  | error e =>
    cases e
    rfl
  | ok p =>
    obtain ⟨inst, mem'⟩ := p
    simp only [finalize, hout]

/-- C6: `blake2b_long` fails with `OutputTooLong` exactly when the output
length is below `MIN_OUTLEN = 4` or above `MAX_OUTLEN = 2 ^ 32 - 1`, succeeds
otherwise, and `hash` propagates the error: output lengths 3 and `2 ^ 32`
always make `hash` fail with `OutputTooLong`. -/
theorem blake2b_long_outlen_errors :
    (∀ (b2b : Nat → List Nat → List Nat) (inputs : List (List Nat)) (n : Nat),
        blake2b_long b2b inputs n = Except.error Error.OutputTooLong ↔
          (n < MIN_OUTLEN ∨ MAX_OUTLEN < n)) ∧
      (∀ (b2b : Nat → List Nat → List Nat) (inputs : List (List Nat)) (n : Nat),
        (∃ bs, blake2b_long b2b inputs n = Except.ok bs) ↔
          (MIN_OUTLEN ≤ n ∧ n ≤ MAX_OUTLEN)) ∧
      (∀ (g : Block → Block → Block) (b2b : Nat → List Nat → List Nat)
          (context : Argon2Context) (alg : Algorithm) (initial_hash : List Nat)
          (memory_len segment_length : Nat) (mem : Mem),
        Instance.hash g b2b context alg initial_hash memory_len segment_length mem 3
          = Except.error Error.OutputTooLong) ∧
      (∀ (g : Block → Block → Block) (b2b : Nat → List Nat → List Nat)
          (context : Argon2Context) (alg : Algorithm) (initial_hash : List Nat)
          (memory_len segment_length : Nat) (mem : Mem),
        Instance.hash g b2b context alg initial_hash memory_len segment_length mem
            (2 ^ 32)
          = Except.error Error.OutputTooLong) := by
  have herr : ∀ (b2b : Nat → List Nat → List Nat) (inputs : List (List Nat)) (n : Nat),
      blake2b_long b2b inputs n = Except.error Error.OutputTooLong ↔
        (n < MIN_OUTLEN ∨ MAX_OUTLEN < n) := by
    intro b2b inputs n
    simp only [blake2b_long]
    by_cases hA : n < MIN_OUTLEN
    · simp [hA]
    · simp only [if_neg hA]
      by_cases hB : n > MAX_OUTLEN
      · simp [hB, hA]
      · simp only [if_neg hB]
        by_cases hC : n ≤ BLAKE2B_OUTBYTES
        · simp [hC, hA]
          omega
        · simp [hC, hA]
          omega
  refine ⟨herr, ?_, ?_, ?_⟩
  · intro b2b inputs n
    simp only [blake2b_long]
    by_cases hA : n < MIN_OUTLEN
    · simp [hA]
    · simp only [if_neg hA]
      by_cases hB : n > MAX_OUTLEN
      · simp [hB]
      · simp only [if_neg hB]
        by_cases hC : n ≤ BLAKE2B_OUTBYTES
        · simp [hC]
          omega
        · simp [hC]
          omega
  · intro g b2b context alg initial_hash memory_len segment_length mem
    exact hash_outlen_error g b2b context alg initial_hash memory_len segment_length
      mem 3 (fun inputs => (herr b2b inputs 3).mpr (by simp [MIN_OUTLEN]))
  · intro g b2b context alg initial_hash memory_len segment_length mem
    exact hash_outlen_error g b2b context alg initial_hash memory_len segment_length
      mem (2 ^ 32) (fun inputs => (herr b2b inputs (2 ^ 32)).mpr
        (by right; simp [MAX_OUTLEN]))
